import Mathlib

/-!
Shallow embedding of the `evict` crate (an eviction-policy engine with an
LRU and an LRU-K frame replacer) and proofs about its operations.

Conventions of the embedding:
* Rust `i64` timestamps and priorities become `Int`; overflow is made
  explicit (`wrapI64`) where the source relies on wrapping atomics.
* The `HashMap`/`PriorityQueue` containers become association lists; the
  scan order of a map is the list order (the source's iteration order is
  unspecified, and no theorem below depends on it).
* Fallible operations return an `Except` result paired with the new state,
  so that state changes that happen on error paths stay visible.
-/

deriving instance DecidableEq for Except

namespace Evict

/-- Largest `i64` value. -/
def i64Max : Int := 2 ^ 63 - 1

/-- Smallest `i64` value. -/
def i64Min : Int := -(2 ^ 63)

/-- Wrap an integer into the `i64` range, the way the `AtomicI64` inside
`UniqueSequence` wraps on overflow. -/
def wrapI64 (x : Int) : Int := (x + 2 ^ 63) % 2 ^ 64 - 2 ^ 63

/-- `EvictError` (`src/error.rs`). -/
inductive EvictError (F : Type) where
  | InvalidFrameId (id : F)
  | PinnedFrameRemoval (id : F)
  | FrameReplacerFull
  | InvalidTimestamp
  | NoFramesAvailable
  | SequenceExhausted
deriving DecidableEq

/-- First value bound to `id` in an association list (map lookup). -/
def findVal {F V : Type} [DecidableEq F] : List (F × V) → F → Option V
  | [], _ => none
  | (f, v) :: rest, id => if f = id then some v else findVal rest id

/-- Remove the first entry bound to `id` (map removal). -/
def removeKey {F V : Type} [DecidableEq F] : List (F × V) → F → List (F × V)
  | [], _ => []
  | (f, v) :: rest, id => if f = id then rest else (f, v) :: removeKey rest id

/-- Replace the value of the first entry bound to `id`, in place. -/
def updateVal {F V : Type} [DecidableEq F] : List (F × V) → F → V → List (F × V)
  | [], _, _ => []
  | (f, v) :: rest, id, v2 =>
    if f = id then (f, v2) :: rest else (f, v) :: updateVal rest id v2

/-- `UniqueSequence` (`src/util/unique_sequence.rs`): a thread-safe counter
backed by an `AtomicI64`, embedded as its current value. -/
structure UniqueSequence where
  val : Int
deriving DecidableEq

/-- `UniqueSequence::new`: the counter starts at 0. -/
def UniqueSequence.new : UniqueSequence := ⟨0⟩

/-- `UniqueSequence::next`: `fetch_add(1, SeqCst)` returns the old value and
stores the wrapped successor (atomic addition wraps); the call reports
`none` exactly when the old value was `i64::MAX`. -/
def UniqueSequence.next (s : UniqueSequence) : Option Int × UniqueSequence :=
  (if s.val = i64Max then none else some s.val, ⟨wrapI64 (s.val + 1)⟩)

/-- State of a `UniqueSequence` after `n` calls to `next`. -/
def UniqueSequence.iterate (s : UniqueSequence) : Nat → UniqueSequence
  | 0 => s
  | n + 1 => ((s.iterate n).next).2

/-- Result of the `n`-th call (0-based) to `next` on a fresh sequence. -/
def UniqueSequence.resultAt (n : Nat) : Option Int :=
  ((UniqueSequence.new.iterate n).next).1

/-- Inner state of `LruReplacer` (`src/replacer/lru.rs`). The
`PriorityQueue<F, Reverse<i64>>` of evictable frames is embedded as an
association list of (frame, priority) pairs; the popped/peeked element is
the one with the greatest `Reverse` priority, i.e. the least `i64` value. -/
structure LruInner (F : Type) where
  capacity : Nat
  frames : List (F × Int)
  seq : UniqueSequence
deriving DecidableEq

/-- `LruReplacer::new`. -/
def LruInner.new (F : Type) (capacity : Nat) : LruInner F :=
  ⟨capacity, [], UniqueSequence.new⟩

/-- Element with the least priority value (the greatest `Reverse` priority);
the earlier element wins ties, though unique priorities preclude them. -/
def findMinPrio {F : Type} : List (F × Int) → Option (F × Int)
  | [] => none
  | x :: xs =>
    match findMinPrio xs with
    | none => some x
    | some y => if y.2 < x.2 then some y else some x

/-- `PriorityQueue::push`: update the priority when the key is present,
insert the pair otherwise. -/
def pqPush {F : Type} [DecidableEq F] (l : List (F × Int)) (id : F) (prio : Int) :
    List (F × Int) :=
  match findVal l id with
  | some _ => updateVal l id prio
  | none => l ++ [(id, prio)]

/-- `LruReplacer::push`: capacity check on the queue length, then a fresh
sequence number becomes the frame's priority. -/
def LruInner.push {F : Type} [DecidableEq F] (s : LruInner F) (id : F) :
    Except (EvictError F) Unit × LruInner F :=
  if s.capacity ≤ s.frames.length then (.error .FrameReplacerFull, s)
  else
    match s.seq.next with
    | (none, seq2) => (.error .SequenceExhausted, { s with seq := seq2 })
    | (some prio, seq2) =>
      (.ok (), { s with frames := pqPush s.frames id prio, seq := seq2 })

/-- `LruReplacer::touch` delegates to `push`. -/
def LruInner.touch {F : Type} [DecidableEq F] (s : LruInner F) (id : F) :
    Except (EvictError F) Unit × LruInner F :=
  s.push id

/-- `LruReplacer::peek`: read-only inspection of the queue top. -/
def LruInner.peek {F : Type} (s : LruInner F) : Option F :=
  (findMinPrio s.frames).map Prod.fst

/-- `LruReplacer::evict`: pop the queue top. -/
def LruInner.evict {F : Type} [DecidableEq F] (s : LruInner F) :
    Option F × LruInner F :=
  match findMinPrio s.frames with
  | none => (none, s)
  | some (id, _) => (some id, { s with frames := removeKey s.frames id })

/-- `LruReplacer::pin`: drop the frame from the queue (no error either way). -/
def LruInner.pin {F : Type} [DecidableEq F] (s : LruInner F) (id : F) :
    Except (EvictError F) Unit × LruInner F :=
  (.ok (), { s with frames := removeKey s.frames id })

/-- `LruReplacer::unpin`: insert through `push` only when absent. -/
def LruInner.unpin {F : Type} [DecidableEq F] (s : LruInner F) (id : F) :
    Except (EvictError F) Unit × LruInner F :=
  match findVal s.frames id with
  | some _ => (.ok (), s)
  | none => s.push id

/-- `LruReplacer::remove`: remove the entry; report `PinnedFrameRemoval`
when nothing was removed. -/
def LruInner.remove {F : Type} [DecidableEq F] (s : LruInner F) (id : F) :
    Except (EvictError F) Unit × LruInner F :=
  match findVal s.frames id with
  | none => (.error (.PinnedFrameRemoval id), { s with frames := removeKey s.frames id })
  | some _ => (.ok (), { s with frames := removeKey s.frames id })

/-- `LruReplacer::size` is the queue length. -/
def LruInner.size {F : Type} (s : LruInner F) : Nat := s.frames.length

/-- Modelled from the spec: the LRU-K replacer draws its timestamps from an
`HlcGenerator` of the external `hlc_gen` crate, whose code is not part of
this repository. Per the spec's Sequence/Timestamp Source contract, each
call returns a token strictly greater than every previously returned one
and reports exhaustion of the representable range as a failure instead of
wrapping. It is embedded as a counter issuing 1, 2, 3, ... and refusing to
go past `i64Max`. -/
structure HlcGenerator where
  counter : Int
deriving DecidableEq

/-- Modelled from the spec: fresh generator, first token will be 1. -/
def HlcGenerator.new : HlcGenerator := ⟨1⟩

/-- Modelled from the spec: `HlcGenerator::next_timestamp` issues the next
strictly larger token, or `none` once the range is exhausted. -/
def HlcGenerator.next_timestamp (g : HlcGenerator) : Option Int × HlcGenerator :=
  if i64Max ≤ g.counter then (none, g) else (some g.counter, ⟨g.counter + 1⟩)

/-- `PageInfo` (`src/replacer/lru_k.rs`): history of up to `k` uncorrelated
access timestamps (list front = oldest, back = most recent), the timestamp
of the very last reference (correlated or not), and the evictable flag. -/
structure PageInfo where
  refs : List Int
  last_ref : Int
  evictable : Bool
deriving DecidableEq

/-- `PageInfo::new`: empty history, default (zero) last reference,
evictable. (The `k` argument of the source only sizes the `VecDeque`; the
bound is applied inside `touch`.) -/
def PageInfo.new : PageInfo := ⟨[], 0, true⟩

/-- The `shift` of `PageInfo::touch`: the gap from the most recent
uncorrelated reference (`refs.back()`) to the new timestamp, 0 for an
empty history. -/
def refShift (refs : List Int) (timestamp : Int) : Int :=
  match refs.getLast? with
  | none => 0
  | some last => timestamp - last

/-- The shifting loop of `PageInfo::touch`: when the shift is positive,
every history entry is moved forward by it (closing the previous
correlated period). -/
def shiftRefs (refs : List Int) (timestamp : Int) : List Int :=
  if 0 < refShift refs timestamp then refs.map (fun el => el + refShift refs timestamp)
  else refs

/-- The capacity check of `PageInfo::touch`: when the history already holds
`k` (= `refs.capacity()`) entries, the oldest is dropped. -/
def boundRefs (refs : List Int) (k : Nat) : List Int :=
  if refs.length = k then refs.drop 1 else refs

/-- `PageInfo::touch`. `k` is `refs.capacity()`, which
`VecDeque::with_capacity(k)` sets to `k`. An access is uncorrelated when
`ref_period` is zero or the gap since the last reference exceeds it; only
then is the history shifted, truncated when full, and extended with the
new timestamp; `last_ref` is updated on every access. -/
def PageInfo.touch (p : PageInfo) (timestamp : Int) (ref_period : Int) (k : Nat) :
    PageInfo :=
  if ref_period = 0 ∨ ref_period < timestamp - p.last_ref then
    { refs := boundRefs (shiftRefs p.refs timestamp) k ++ [timestamp],
      last_ref := timestamp, evictable := p.evictable }
  else
    { p with last_ref := timestamp }

/-- `LruKConfig` (`src/replacer/lru_k.rs`). -/
structure LruKConfig where
  capacity : Nat
  k : Nat
  ref_period : Int
deriving DecidableEq

/-- Inner state of `LruKReplacer`: configuration, count of evictable
frames, the frame map (association list, scan order = list order), and the
timestamp source. -/
structure LruKInner (F : Type) where
  config : LruKConfig
  size : Nat
  framed_pages : List (F × PageInfo)
  seq : HlcGenerator
deriving DecidableEq

/-- `LruKReplacer::with_config` / `::new`: empty map, size 0. -/
def LruKInner.new (F : Type) (capacity k : Nat) (ref_period : Int) : LruKInner F :=
  ⟨⟨capacity, k, ref_period⟩, 0, [], HlcGenerator.new⟩

/-- Backward-k distance as computed inside `LruKReplacer::peek`: based on
the most recent uncorrelated reference `refs.back()` (0 when the history is
empty); the `i64::MAX`-derived sentinel applies while the history holds
fewer than `k` entries. -/
def kDistOf (k : Nat) (timestamp : Int) (p : PageInfo) : Int :=
  if p.refs.length < k then i64Max - (p.refs.getLast?).getD 0
  else timestamp - (p.refs.getLast?).getD 0

/-- The scan of `LruKReplacer::peek` over the frame map, carrying
`max_k_dist` (initially 0) and the current candidate (initially `none`);
pinned frames and frames inside the reference-period guard are skipped, and
the candidate is replaced whenever a frame reaches the running maximum. -/
def peekScan {F : Type} (k : Nat) (rp t : Int) :
    List (F × PageInfo) → Int → Option F → Int × Option F
  | [], maxd, res => (maxd, res)
  | (id, p) :: rest, maxd, res =>
    if p.evictable = false then peekScan k rp t rest maxd res
    else if 0 < rp ∧ t - p.last_ref ≤ rp then peekScan k rp t rest maxd res
    else if maxd ≤ kDistOf k t p then peekScan k rp t rest (kDistOf k t p) (some id)
    else peekScan k rp t rest maxd res

/-- `LruKReplacer::peek`: draw a fresh evaluation timestamp (possibly
failing on exhaustion) and scan the frame map. -/
def LruKInner.peek {F : Type} (s : LruKInner F) : Option F × LruKInner F :=
  match s.seq.next_timestamp with
  | (none, g2) => (none, { s with seq := g2 })
  | (some t, g2) =>
    ((peekScan s.config.k s.config.ref_period t s.framed_pages 0 none).2,
      { s with seq := g2 })

/-- `LruKReplacer::evict`: `peek`, then remove the victim and decrement
`size`. -/
def LruKInner.evict {F : Type} [DecidableEq F] (s : LruKInner F) :
    Option F × LruKInner F :=
  match s.peek with
  | (none, s2) => (none, s2)
  | (some id, s2) =>
    let pages := removeKey s2.framed_pages id
    (some id, { s2 with framed_pages := pages, size := s2.size - 1 })

/-- `LruKReplacer::touch`: full check (only new frames at capacity fail),
fresh timestamp (exhaustion fails), then insert-or-update the page and bump
`size` for a new frame. -/
def LruKInner.touch {F : Type} [DecidableEq F] (s : LruKInner F) (id : F) :
    Except (EvictError F) Unit × LruKInner F :=
  if s.config.capacity ≤ s.size ∧ findVal s.framed_pages id = none then
    (.error .FrameReplacerFull, s)
  else
    match s.seq.next_timestamp with
    | (none, g2) => (.error .SequenceExhausted, { s with seq := g2 })
    | (some t, g2) =>
      match findVal s.framed_pages id with
      | some p =>
        let pages := updateVal s.framed_pages id (p.touch t s.config.ref_period s.config.k)
        (.ok (), { s with seq := g2, framed_pages := pages })
      | none =>
        let pages := s.framed_pages ++ [(id, PageInfo.new.touch t s.config.ref_period s.config.k)]
        (.ok (), { s with seq := g2, size := s.size + 1, framed_pages := pages })

/-- `LruKReplacer::pin`: unknown frames are an error; pinning an already
pinned frame is a no-op; otherwise clear the flag and decrement `size`. -/
def LruKInner.pin {F : Type} [DecidableEq F] (s : LruKInner F) (id : F) :
    Except (EvictError F) Unit × LruKInner F :=
  match findVal s.framed_pages id with
  | none => (.error (.InvalidFrameId id), s)
  | some p =>
    if p.evictable = false then (.ok (), s)
    else
      let pages := updateVal s.framed_pages id { p with evictable := false }
      (.ok (), { s with framed_pages := pages, size := s.size - 1 })

/-- `LruKReplacer::unpin`: unknown frames are an error; unpinning an
already evictable frame is a no-op; otherwise set the flag and increment
`size`. -/
def LruKInner.unpin {F : Type} [DecidableEq F] (s : LruKInner F) (id : F) :
    Except (EvictError F) Unit × LruKInner F :=
  match findVal s.framed_pages id with
  | none => (.error (.InvalidFrameId id), s)
  | some p =>
    if p.evictable = true then (.ok (), s)
    else
      let pages := updateVal s.framed_pages id { p with evictable := true }
      (.ok (), { s with framed_pages := pages, size := s.size + 1 })

/-- `LruKReplacer::remove`: untracked frames are silently accepted; pinned
frames are an error; evictable frames are dropped and `size` decremented. -/
def LruKInner.remove {F : Type} [DecidableEq F] (s : LruKInner F) (id : F) :
    Except (EvictError F) Unit × LruKInner F :=
  match findVal s.framed_pages id with
  | none => (.ok (), s)
  | some p =>
    if p.evictable = false then (.error (.PinnedFrameRemoval id), s)
    else
      let pages := removeKey s.framed_pages id
      (.ok (), { s with framed_pages := pages, size := s.size - 1 })

/-- One public operation of the LRU-K replacer, for stating properties of
arbitrary call sequences. -/
inductive ROp (F : Type) where
  | touch (id : F)
  | touchWith (id : F)
  | pin (id : F)
  | unpin (id : F)
  | evict
  | remove (id : F)
  | peek
deriving DecidableEq

/-- Apply one operation to an LRU-K state, keeping only the state
(`touch_with` delegates to `touch` in the source). -/
def applyROp {F : Type} [DecidableEq F] (s : LruKInner F) : ROp F → LruKInner F
  | .touch id => (s.touch id).2
  | .touchWith id => (s.touch id).2
  | .pin id => (s.pin id).2
  | .unpin id => (s.unpin id).2
  | .evict => (s.evict).2
  | .remove id => (s.remove id).2
  | .peek => (s.peek).2

/-- Apply a sequence of operations, left to right. -/
def applyROps {F : Type} [DecidableEq F] (s : LruKInner F) : List (ROp F) → LruKInner F
  | [] => s
  | op :: rest => applyROps (applyROp s op) rest

/-- `true` when the operation list contains no `pin`. -/
def noPinOps {F : Type} : List (ROp F) → Bool
  | [] => true
  | .pin _ :: _ => false
  | _ :: rest => noPinOps rest

/-- A frame is an eviction candidate at evaluation time `t`: evictable and
not excluded by the reference-period guard. -/
def eligibleAt (rp t : Int) (p : PageInfo) : Prop :=
  p.evictable = true ∧ ¬(0 < rp ∧ t - p.last_ref ≤ rp)

instance (rp t : Int) (p : PageInfo) : Decidable (eligibleAt rp t p) := by
  unfold eligibleAt
  infer_instance

/-- Backward-k distance following the spec's wording: based on the oldest
recorded token `H.oldest` (history front; 0 for an empty history), with the
`MAX - oldest` sentinel while the history holds fewer than `k` entries. -/
def specKDist (k : Nat) (t : Int) (p : PageInfo) : Int :=
  if p.refs.length < k then i64Max - (p.refs.head?).getD 0
  else t - (p.refs.head?).getD 0

/-- Every entry of every history equals the newest entry. This holds in
every reachable LRU-K state, because each uncorrelated touch first shifts
the whole history up to the new timestamp. -/
def HistUniform {F : Type} (s : LruKInner F) : Prop :=
  ∀ pr : F × PageInfo, pr ∈ s.framed_pages →
    ∀ x ∈ pr.2.refs, x = (pr.2.refs.getLast?).getD 0

instance {F : Type} (s : LruKInner F) : Decidable (HistUniform s) := by
  unfold HistUniform
  infer_instance

/-! ### Association-list lemmas -/

theorem findVal_mem {F V : Type} [DecidableEq F] {l : List (F × V)} {id : F} {v : V}
    (h : findVal l id = some v) : (id, v) ∈ l := by
  induction l with
  | nil => simp [findVal] at h
  | cons x rest ih =>
    obtain ⟨f, w⟩ := x
    by_cases hf : f = id
    · subst hf
      simp [findVal] at h
      subst h
      exact List.mem_cons_self _ _
    · simp [findVal, hf] at h
      exact List.mem_cons_of_mem _ (ih h)

theorem updateVal_length {F V : Type} [DecidableEq F] (l : List (F × V)) (id : F) (v : V) :
    (updateVal l id v).length = l.length := by
  induction l with
  | nil => rfl
  | cons x rest ih =>
    obtain ⟨f, w⟩ := x
    by_cases hf : f = id <;> simp [updateVal, hf, ih]

theorem mem_updateVal {F V : Type} [DecidableEq F] {l : List (F × V)} {id : F} {v : V}
    {pr : F × V} (h : pr ∈ updateVal l id v) : pr ∈ l ∨ pr = (id, v) := by
  induction l with
  | nil => simp [updateVal] at h
  | cons x rest ih =>
    obtain ⟨f, w⟩ := x
    by_cases hf : f = id
    · subst hf
      simp [updateVal] at h
      rcases h with h | h
      · right
        simp [h]
      · left
        exact List.mem_cons_of_mem _ h
    · simp [updateVal, hf] at h
      rcases h with h | h
      · left
        simp [h]
      · rcases ih h with h2 | h2
        · left
          exact List.mem_cons_of_mem _ h2
        · right
          exact h2

theorem findVal_updateVal_self {F V : Type} [DecidableEq F] {l : List (F × V)} {id : F}
    {p : V} (v : V) (h : findVal l id = some p) :
    findVal (updateVal l id v) id = some v := by
  induction l with
  | nil => simp [findVal] at h
  | cons x rest ih =>
    obtain ⟨f, w⟩ := x
    by_cases hf : f = id
    · subst hf
      simp [updateVal, findVal]
    · simp [findVal, hf] at h
      simp [updateVal, findVal, hf]
      exact ih h

theorem findVal_updateVal_ne {F V : Type} [DecidableEq F] (l : List (F × V)) (id id2 : F)
    (v : V) (h : id2 ≠ id) : findVal (updateVal l id v) id2 = findVal l id2 := by
  induction l with
  | nil => rfl
  | cons x rest ih =>
    obtain ⟨f, w⟩ := x
    by_cases hf : f = id
    · subst hf
      have hne : f ≠ id2 := fun hc => h hc.symm
      simp [updateVal, findVal, hne]
    · by_cases hf2 : f = id2
      · subst hf2
        simp [updateVal, findVal, hf, h]
      · simp [updateVal, findVal, hf, hf2, ih]

theorem removeKey_of_findVal_none {F V : Type} [DecidableEq F] {l : List (F × V)} {id : F}
    (h : findVal l id = none) : removeKey l id = l := by
  induction l with
  | nil => rfl
  | cons x rest ih =>
    obtain ⟨f, w⟩ := x
    by_cases hf : f = id
    · simp [findVal, hf] at h
    · simp [findVal, hf] at h
      simp [removeKey, hf, ih h]

theorem removeKey_length {F V : Type} [DecidableEq F] {l : List (F × V)} {id : F} {v : V}
    (h : (id, v) ∈ l) : l.length = (removeKey l id).length + 1 := by
  induction l with
  | nil => simp at h
  | cons x rest ih =>
    obtain ⟨f, w⟩ := x
    by_cases hf : f = id
    · simp [removeKey, hf]
    · have : (id, v) ∈ rest := by
        rcases List.mem_cons.mp h with h2 | h2
        · exact absurd (congrArg Prod.fst h2.symm) hf
        · exact h2
      simp [removeKey, hf, ih this]

theorem mem_removeKey {F V : Type} [DecidableEq F] {l : List (F × V)} {id : F}
    {pr : F × V} (h : pr ∈ removeKey l id) : pr ∈ l := by
  induction l with
  | nil => simp [removeKey] at h
  | cons x rest ih =>
    obtain ⟨f, w⟩ := x
    by_cases hf : f = id
    · simp [removeKey, hf] at h
      exact List.mem_cons_of_mem _ h
    · simp [removeKey, hf] at h
      rcases h with h | h
      · simp [h]
      · exact List.mem_cons_of_mem _ (ih h)

theorem findVal_append_self {F V : Type} [DecidableEq F] {l : List (F × V)} {id : F}
    (v : V) (h : findVal l id = none) : findVal (l ++ [(id, v)]) id = some v := by
  induction l with
  | nil => simp [findVal]
  | cons x rest ih =>
    obtain ⟨f, w⟩ := x
    by_cases hf : f = id
    · simp [findVal, hf] at h
    · simp [findVal, hf] at h
      simp [findVal, hf, ih h]

/-! ### PageInfo lemmas -/

theorem PageInfo.touch_evictable (p : PageInfo) (t rp : Int) (k : Nat) :
    (p.touch t rp k).evictable = p.evictable := by
  unfold PageInfo.touch
  split <;> rfl

theorem shiftRefs_length (refs : List Int) (t : Int) :
    (shiftRefs refs t).length = refs.length := by
  unfold shiftRefs
  split <;> simp

theorem boundRefs_length (refs : List Int) (k : Nat) :
    (boundRefs refs k).length = if refs.length = k then refs.length - 1 else refs.length := by
  unfold boundRefs
  split <;> simp_all

theorem PageInfo.touch_refs_length (p : PageInfo) (t rp : Int) (k : Nat)
    (hu : rp = 0 ∨ rp < t - p.last_ref) (hle : p.refs.length ≤ k) (hk : 0 < k) :
    (p.touch t rp k).refs.length = min (p.refs.length + 1) k := by
  unfold PageInfo.touch
  rw [if_pos hu]
  simp only [List.length_append, List.length_singleton]
  have h1 := shiftRefs_length p.refs t
  unfold boundRefs
  by_cases hfull : (shiftRefs p.refs t).length = k
  · rw [if_pos hfull]
    simp only [List.length_drop]
    rw [Nat.min_def]
    split <;> omega
  · rw [if_neg hfull]
    rw [Nat.min_def]
    split <;> omega

theorem PageInfo.touch_fresh (t rp : Int) (k : Nat) (hk : 0 < k)
    (hu : rp = 0 ∨ rp < t) : PageInfo.new.touch t rp k = ⟨[t], t, true⟩ := by
  unfold PageInfo.touch
  rw [if_pos]
  · have h1 : shiftRefs PageInfo.new.refs t = [] := by
      simp [PageInfo.new, shiftRefs, refShift]
    rw [h1]
    have h2 : boundRefs [] k = [] := by
      unfold boundRefs
      rw [if_neg]
      simp
      omega
    rw [h2]
    rfl
  · simpa [PageInfo.new] using hu

/-! ### Peek lemmas -/

theorem lruK_peek_state {F : Type} (s : LruKInner F) :
    ((s.peek).2).framed_pages = s.framed_pages ∧ ((s.peek).2).size = s.size ∧
      ((s.peek).2).config = s.config := by
  unfold LruKInner.peek
  cases ht : s.seq.next_timestamp with
  | mk o g2 => cases o <;> simp

/-- Lower bound: the running maximum only grows during the scan, and at the
end it dominates the distance of every eligible frame of the scanned
list. -/
theorem peekScan_max_ge {F : Type} (k : Nat) (rp t : Int) :
    ∀ (l : List (F × PageInfo)) (maxd : Int) (res : Option F),
      maxd ≤ (peekScan k rp t l maxd res).1 ∧
      ∀ pr : F × PageInfo, pr ∈ l → eligibleAt rp t pr.2 →
        kDistOf k t pr.2 ≤ (peekScan k rp t l maxd res).1 := by
  intro l
  induction l with
  | nil =>
    intro maxd res
    refine ⟨le_refl _, ?_⟩
    intro pr h
    simp at h
  | cons x rest ih =>
    intro maxd res
    obtain ⟨id, p⟩ := x
    by_cases h1 : p.evictable = false
    · rw [peekScan, if_pos h1]
      refine ⟨(ih maxd res).1, ?_⟩
      intro pr hmem hel
      rcases List.mem_cons.mp hmem with h2 | h2
      · rw [h2] at hel
        rw [hel.1] at h1
        cases h1
      · exact (ih maxd res).2 pr h2 hel
    · rw [peekScan, if_neg h1]
      by_cases h2 : 0 < rp ∧ t - p.last_ref ≤ rp
      · rw [if_pos h2]
        refine ⟨(ih maxd res).1, ?_⟩
        intro pr hmem hel
        rcases List.mem_cons.mp hmem with h3 | h3
        · rw [h3] at hel
          exact absurd h2 hel.2
        · exact (ih maxd res).2 pr h3 hel
      · rw [if_neg h2]
        by_cases h3 : maxd ≤ kDistOf k t p
        · rw [if_pos h3]
          refine ⟨le_trans h3 (ih (kDistOf k t p) (some id)).1, ?_⟩
          intro pr hmem hel
          rcases List.mem_cons.mp hmem with h4 | h4
          · rw [h4]
            exact (ih (kDistOf k t p) (some id)).1
          · exact (ih (kDistOf k t p) (some id)).2 pr h4 hel
        · rw [if_neg h3]
          refine ⟨(ih maxd res).1, ?_⟩
          intro pr hmem hel
          rcases List.mem_cons.mp hmem with h4 | h4
          · rw [h4]
            have := (ih maxd res).1
            have h5 := le_of_not_le h3
            exact le_trans (le_of_lt (lt_of_not_le h3)) (ih maxd res).1
          · exact (ih maxd res).2 pr h4 hel

/-- Attainment: when the scan produces a candidate, either it is the
incoming candidate with the maximum untouched, or the candidate is an
eligible member of the scanned list whose distance equals the final
maximum. -/
theorem peekScan_some_attained {F : Type} (k : Nat) (rp t : Int) :
    ∀ (l : List (F × PageInfo)) (maxd : Int) (res : Option F) (idr : F),
      (peekScan k rp t l maxd res).2 = some idr →
      (res = some idr ∧ (peekScan k rp t l maxd res).1 = maxd) ∨
      ∃ p, (idr, p) ∈ l ∧ eligibleAt rp t p ∧
        kDistOf k t p = (peekScan k rp t l maxd res).1 := by
  intro l
  induction l with
  | nil =>
    intro maxd res idr h
    exact Or.inl ⟨h, rfl⟩
  | cons x rest ih =>
    intro maxd res idr h
    obtain ⟨id, p⟩ := x
    by_cases h1 : p.evictable = false
    · rw [peekScan, if_pos h1] at h ⊢
      rcases ih maxd res idr h with h2 | ⟨p2, hm, he, hd⟩
      · exact Or.inl h2
      · exact Or.inr ⟨p2, List.mem_cons_of_mem _ hm, he, hd⟩
    · rw [peekScan, if_neg h1] at h ⊢
      by_cases h2 : 0 < rp ∧ t - p.last_ref ≤ rp
      · rw [if_pos h2] at h ⊢
        rcases ih maxd res idr h with h3 | ⟨p2, hm, he, hd⟩
        · exact Or.inl h3
        · exact Or.inr ⟨p2, List.mem_cons_of_mem _ hm, he, hd⟩
      · rw [if_neg h2] at h ⊢
        by_cases h3 : maxd ≤ kDistOf k t p
        · rw [if_pos h3] at h ⊢
          rcases ih (kDistOf k t p) (some id) idr h with ⟨h4, h5⟩ | ⟨p2, hm, he, hd⟩
          · refine Or.inr ⟨p, ?_, ?_, h5.symm⟩
            · rw [Option.some_inj.mp h4]
              exact List.mem_cons_self _ _
            · exact ⟨eq_true_of_ne_false h1, h2⟩
          · exact Or.inr ⟨p2, List.mem_cons_of_mem _ hm, he, hd⟩
        · rw [if_neg h3] at h ⊢
          rcases ih maxd res idr h with h4 | ⟨p2, hm, he, hd⟩
          · exact Or.inl h4
          · exact Or.inr ⟨p2, List.mem_cons_of_mem _ hm, he, hd⟩

/-- On a uniform history (all entries equal), the spec's oldest-based
distance coincides with the code's newest-based distance. -/
theorem specKDist_eq_kDistOf (k : Nat) (t : Int) (p : PageInfo)
    (hu : ∀ x ∈ p.refs, x = (p.refs.getLast?).getD 0) :
    specKDist k t p = kDistOf k t p := by
  have hho : (p.refs.head?).getD 0 = (p.refs.getLast?).getD 0 := by
    cases hr : p.refs with
    | nil => rfl
    | cons a rest =>
      have ha : a ∈ p.refs := by
        rw [hr]
        exact List.mem_cons_self _ _
      have h2 := hu a ha
      rw [hr] at h2
      simp only [List.head?_cons, Option.getD_some]
      exact h2
  unfold specKDist kDistOf
  rw [hho]

/-! ### UniqueSequence lemmas -/

theorem uniqueSequence_iterate_val (n : Nat) :
    (UniqueSequence.new.iterate n).val = wrapI64 n := by
  induction n with
  | zero =>
    show (0 : Int) = wrapI64 0
    norm_num [wrapI64]
  | succ n ih =>
    show wrapI64 ((UniqueSequence.new.iterate n).val + 1) = wrapI64 (n + 1 : Nat)
    rw [ih]
    unfold wrapI64
    push_cast
    omega

/-! ### Claim C1 -/

/-- A concrete uniform LRU-K state: one evictable frame with a single
recorded access at token 5, evaluation counter at 6. -/
def c1WitnessState : LruKInner Nat := ⟨⟨4, 2, 0⟩, 1, [(1, ⟨[5], 5, true⟩)], ⟨6⟩⟩

/-- C1: on any LRU-K state whose histories are uniform (true of every
reachable state), when `peek` returns a frame, that frame is evictable,
passes the reference-period guard at the drawn evaluation token `t`, and
its backward-K distance — `t - H.oldest` with `K` or more entries, the
sentinel `MAX - oldest` otherwise — is maximal among all such frames;
moreover, among frames with insufficient history the one with the older
recorded access always ranks strictly larger. -/
theorem lruK_peek_selects_max_backward_k_distance {F : Type} (s : LruKInner F) (id : F)
    (hU : HistUniform s) (hpk : (s.peek).1 = some id) :
    ∃ t p, (s.seq.next_timestamp).1 = some t ∧ (id, p) ∈ s.framed_pages ∧
      eligibleAt s.config.ref_period t p ∧
      (∀ pr : F × PageInfo, pr ∈ s.framed_pages → eligibleAt s.config.ref_period t pr.2 →
        specKDist s.config.k t pr.2 ≤ specKDist s.config.k t p) ∧
      (∀ q1 q2 : PageInfo, q1.refs.length < s.config.k → q2.refs.length < s.config.k →
        (q1.refs.head?).getD 0 < (q2.refs.head?).getD 0 →
        specKDist s.config.k t q2 < specKDist s.config.k t q1) := by
  unfold LruKInner.peek at hpk
  cases ht : s.seq.next_timestamp with
  | mk o g2 =>
    rw [ht] at hpk
    cases o with
    | none => exact Option.noConfusion hpk
    | some t =>
      have hpk2 : (peekScan s.config.k s.config.ref_period t s.framed_pages 0 none).2 =
          some id := hpk
      rcases peekScan_some_attained s.config.k s.config.ref_period t s.framed_pages 0 none
          id hpk2 with ⟨h4, _⟩ | ⟨p, hm, he, hd⟩
      · exact Option.noConfusion h4
      · refine ⟨t, p, rfl, hm, he, ?_, ?_⟩
        · intro pr hmem hel
          have hmax := (peekScan_max_ge s.config.k s.config.ref_period t
            s.framed_pages 0 none).2 pr hmem hel
          rw [specKDist_eq_kDistOf _ _ _ (hU pr hmem),
            specKDist_eq_kDistOf _ _ _ (hU (id, p) hm)]
          rw [hd]
          exact hmax
        · intro q1 q2 hl1 hl2 hlt
          unfold specKDist
          rw [if_pos hl1, if_pos hl2]
          omega

/-- Witness for C1 at `c1WitnessState` with frame 1. -/
theorem lruK_peek_selects_max_backward_k_distance_witness :
    HistUniform c1WitnessState ∧
    ∃ t p, (c1WitnessState.seq.next_timestamp).1 = some t ∧
      ((1 : Nat), p) ∈ c1WitnessState.framed_pages ∧
      eligibleAt c1WitnessState.config.ref_period t p ∧
      (∀ pr : Nat × PageInfo, pr ∈ c1WitnessState.framed_pages →
        eligibleAt c1WitnessState.config.ref_period t pr.2 →
        specKDist c1WitnessState.config.k t pr.2 ≤ specKDist c1WitnessState.config.k t p) ∧
      (∀ q1 q2 : PageInfo, q1.refs.length < c1WitnessState.config.k →
        q2.refs.length < c1WitnessState.config.k →
        (q1.refs.head?).getD 0 < (q2.refs.head?).getD 0 →
        specKDist c1WitnessState.config.k t q2 < specKDist c1WitnessState.config.k t q1) :=
  ⟨by decide,
    lruK_peek_selects_max_backward_k_distance c1WitnessState 1 (by decide) (by decide)⟩

/-! ### Claim C5 -/

/-- C5 (code bug): the 0th call on a fresh `UniqueSequence` returns token
0; the call made in state `i64::MAX` (the `2^63 - 1`-th) reports `none`;
but because the atomic wraps, the very next call returns `i64::MIN`, a
negative token smaller than the token of the 0th call — the generator
resumes producing values after exhaustion instead of failing, violating
the strictly-increasing contract. -/
theorem uniqueSequence_wraps_after_exhaustion :
    UniqueSequence.resultAt 0 = some 0 ∧
    UniqueSequence.resultAt (2 ^ 63 - 1) = none ∧
    UniqueSequence.resultAt (2 ^ 63) = some i64Min ∧
    i64Min < 0 := by
  have e1 : wrapI64 (((2 : Nat) ^ 63 - 1 : Nat) : Int) = i64Max := by decide
  have e2 : wrapI64 (((2 : Nat) ^ 63 : Nat) : Int) = i64Min := by decide
  refine ⟨by decide, ?_, ?_, by decide⟩
  · unfold UniqueSequence.resultAt UniqueSequence.next
    rw [uniqueSequence_iterate_val, e1, if_pos rfl]
  · unfold UniqueSequence.resultAt UniqueSequence.next
    rw [uniqueSequence_iterate_val, e2, if_neg (by decide)]

/-! ### Claim C6 -/

/-- LRU-K state reaching the guard boundary: capacity 2, `k` 1,
`ref_period` 2, frames 1 and 2 touched at tokens 1 and 2. -/
def c6State : LruKInner Nat :=
  applyROps (LruKInner.new Nat 2 1 2) [ROp.touch 1, ROp.touch 2]

/-- C6 counterexample: on `c6State`, `peek` returns no victim (both frames
sit inside the reference-period guard at the peeked token), yet the
immediately following `evict` — drawing a later token that moves frame 1
outside the guard — returns frame 1. The pair is neither both `none` nor
both the same frame. -/
theorem lruK_peek_then_evict_differ_counterexample :
    ((c6State.peek).1 = none) ∧ ((((c6State.peek).2).evict).1 = some 1) := by
  constructor <;> decide

/-- C6 amended: the LRU replacer's `evict` pops exactly the frame `peek`
reports (and `peek` does not change the state), while the LRU-K `evict`
returns exactly the frame selected by the `peek` evaluation it performs
itself on the current state. -/
theorem evict_returns_peeked_frame {F : Type} [DecidableEq F] :
    (∀ s : LruInner F, (s.evict).1 = s.peek) ∧
    (∀ s : LruKInner F, (s.evict).1 = (s.peek).1) := by
  constructor
  · intro s
    unfold LruInner.evict LruInner.peek
    cases h : findMinPrio s.frames with
    | none => simp
    | some x =>
      obtain ⟨id, prio⟩ := x
      simp
  · intro s
    unfold LruKInner.evict
    cases h : s.peek with
    | mk o s2 => cases o <;> simp

/-- Witness for C6 (amended) at concrete replacers. -/
theorem evict_returns_peeked_frame_witness :
    (((LruInner.new Nat 3).evict).1 = (LruInner.new Nat 3).peek) ∧
    ((c6State.evict).1 = (c6State.peek).1) :=
  ⟨evict_returns_peeked_frame.1 (LruInner.new Nat 3),
    evict_returns_peeked_frame.2 c6State⟩

/-! ### Claim C7 -/

/-- LRU-K state with one touched frame, for the peek-mutation
counterexample. -/
def c7State : LruKInner Nat := ((LruKInner.new Nat 4 2 0).touch 1).2

/-- C7 counterexample: after `peek`, the LRU-K replacer state is not
identical to the state before the call — the sequence source advanced by
the evaluation token the scan consumed. -/
theorem lruK_peek_advances_seq_counterexample :
    ((c7State.peek).2) ≠ c7State ∧ ((c7State.peek).2).seq ≠ c7State.seq := by
  constructor <;> decide

/-- C7 amended: LRU-K `peek` preserves the tracked-frame map (histories
and evictable flags), `size` and the configuration; only the sequence
source advances. (The LRU `peek` is embedded as a pure function of the
state, so it preserves everything by construction.) -/
theorem lruK_peek_preserves_all_but_seq (F : Type) :
    ∀ s : LruKInner F, ((s.peek).2).framed_pages = s.framed_pages ∧
      ((s.peek).2).size = s.size ∧ ((s.peek).2).config = s.config :=
  fun s => lruK_peek_state s

/-- Witness for C7 (amended) at the concrete state `c7State`. -/
theorem lruK_peek_preserves_all_but_seq_witness :
    ((c7State.peek).2).framed_pages = c7State.framed_pages ∧
      ((c7State.peek).2).size = c7State.size ∧
      ((c7State.peek).2).config = c7State.config :=
  lruK_peek_preserves_all_but_seq Nat c7State

/-! ### Claim C3 -/

/-- C3 amended: the LRU-K `touch` fails with the replacer-full error, with
no mutation, exactly when the frame is untracked and `size` is at
capacity, and on a tracked frame (with a live sequence source) it
succeeds, keeps `size`, and updates only that frame's history in place;
the LRU `touch`, however, fails with the full error exactly when the queue
is at capacity, regardless of whether the frame is tracked, again without
mutation. -/
theorem touch_replacer_full_conditions {F : Type} [DecidableEq F]
    (sk : LruKInner F) (sl : LruInner F) (id : F) :
    ((sk.touch id).1 = .error .FrameReplacerFull ↔
      (findVal sk.framed_pages id = none ∧ sk.config.capacity ≤ sk.size)) ∧
    ((sk.touch id).1 = .error .FrameReplacerFull → (sk.touch id).2 = sk) ∧
    (∀ p, findVal sk.framed_pages id = some p → sk.seq.counter < i64Max →
      (sk.touch id).1 = .ok () ∧ ((sk.touch id).2).size = sk.size ∧
      findVal ((sk.touch id).2).framed_pages id =
        some (p.touch sk.seq.counter sk.config.ref_period sk.config.k) ∧
      ∀ id2, id2 ≠ id → findVal ((sk.touch id).2).framed_pages id2 =
        findVal sk.framed_pages id2) ∧
    ((sl.touch id).1 = .error .FrameReplacerFull ↔ sl.capacity ≤ sl.frames.length) ∧
    ((sl.touch id).1 = .error .FrameReplacerFull → (sl.touch id).2 = sl) := by
  constructor
  · unfold LruKInner.touch
    by_cases hc : sk.config.capacity ≤ sk.size ∧ findVal sk.framed_pages id = none
    · rw [if_pos hc]
      exact ⟨fun _ => ⟨hc.2, hc.1⟩, fun _ => rfl⟩
    · rw [if_neg hc]
      cases hnt : sk.seq.next_timestamp with
      | mk o g2 =>
        cases o with
        | none =>
          constructor
          · intro h
            simp at h
          · intro ⟨hn, hcap⟩
            exact absurd ⟨hcap, hn⟩ hc
        | some t =>
          cases hf : findVal sk.framed_pages id with
          | none =>
            constructor
            · intro h
              simp at h
            · intro ⟨hn, hcap⟩
              exact absurd ⟨hcap, hf⟩ hc
          | some p =>
            constructor
            · intro h
              simp at h
            · intro ⟨hn, hcap⟩
              exact Option.noConfusion hn
  constructor
  · unfold LruKInner.touch
    by_cases hc : sk.config.capacity ≤ sk.size ∧ findVal sk.framed_pages id = none
    · rw [if_pos hc]
      intro _
      rfl
    · rw [if_neg hc]
      cases hnt : sk.seq.next_timestamp with
      | mk o g2 =>
        cases o with
        | none =>
          intro h
          simp at h
        | some t =>
          cases hf : findVal sk.framed_pages id with
          | none =>
            intro h
            simp at h
          | some p =>
            intro h
            simp at h
  constructor
  · intro p hp hlt
    have hnt : sk.seq.next_timestamp = (some sk.seq.counter, ⟨sk.seq.counter + 1⟩) := by
      unfold HlcGenerator.next_timestamp
      rw [if_neg (by omega)]
    have hc : ¬(sk.config.capacity ≤ sk.size ∧ findVal sk.framed_pages id = none) := by
      intro ⟨_, hn⟩
      rw [hp] at hn
      exact Option.noConfusion hn
    unfold LruKInner.touch
    rw [if_neg hc, hnt, hp]
    refine ⟨rfl, rfl, ?_, ?_⟩
    · exact findVal_updateVal_self _ hp
    · intro id2 hne
      exact findVal_updateVal_ne _ _ _ _ hne
  constructor
  · unfold LruInner.touch LruInner.push
    by_cases hl : sl.capacity ≤ sl.frames.length
    · rw [if_pos hl]
      exact ⟨fun _ => hl, fun _ => rfl⟩
    · rw [if_neg hl]
      cases hn : sl.seq.next with
      | mk o seq2 =>
        cases o with
        | none =>
          constructor
          · intro h
            simp at h
          · intro h
            exact absurd h hl
        | some prio =>
          constructor
          · intro h
            simp at h
          · intro h
            exact absurd h hl
  · unfold LruInner.touch LruInner.push
    by_cases hl : sl.capacity ≤ sl.frames.length
    · rw [if_pos hl]
      intro _
      rfl
    · rw [if_neg hl]
      cases hn : sl.seq.next with
      | mk o seq2 =>
        cases o with
        | none =>
          intro h
          simp at h
        | some prio =>
          intro h
          simp at h

/-- Concrete LRU-K state with frame 1 tracked (touched once at token 1). -/
def c3K : LruKInner Nat := ((LruKInner.new Nat 4 2 0).touch 1).2

/-- C3 counterexample: on an LRU replacer of capacity 1, the first touch of
frame 1 succeeds and tracks it, yet a second touch of the very same,
already tracked frame fails with the replacer-full error — contradicting
"when id is already tracked, touch(id) succeeds". -/
theorem lru_touch_tracked_full_counterexample :
    (((LruInner.new Nat 1).touch 1).1 = .ok ()) ∧
    (findVal (((LruInner.new Nat 1).touch 1).2).frames 1 = some 0) ∧
    (((((LruInner.new Nat 1).touch 1).2).touch 1).1 = .error .FrameReplacerFull) := by
  refine ⟨by decide, by decide, by decide⟩

/-- Witness for C3: a tracked-frame touch on `c3K` succeeds in place, and a
capacity-0 LRU replacer rejects a touch without mutating. -/
theorem touch_replacer_full_conditions_witness :
    ((c3K.touch 1).1 = .ok () ∧ ((c3K.touch 1).2).size = c3K.size ∧
      findVal ((c3K.touch 1).2).framed_pages 1 =
        some ((⟨[1], 1, true⟩ : PageInfo).touch c3K.seq.counter c3K.config.ref_period
          c3K.config.k) ∧
      ∀ id2, id2 ≠ 1 → findVal ((c3K.touch 1).2).framed_pages id2 =
        findVal c3K.framed_pages id2) ∧
    (((LruInner.new Nat 0).touch 1).1 = .error .FrameReplacerFull) ∧
    (((LruInner.new Nat 0).touch 1).2 = LruInner.new Nat 0) :=
  ⟨(touch_replacer_full_conditions c3K (LruInner.new Nat 0) 1).2.2.1
      ⟨[1], 1, true⟩ (by decide) (by decide),
    ((touch_replacer_full_conditions c3K (LruInner.new Nat 0) 1).2.2.2.1).mpr (by decide),
    (touch_replacer_full_conditions c3K (LruInner.new Nat 0) 1).2.2.2.2
      (((touch_replacer_full_conditions c3K (LruInner.new Nat 0) 1).2.2.2.1).mpr
        (by decide))⟩

/-! ### Claim C4 -/

/-- C4 amended: for the LRU replacer, `unpin` on an untracked frame is the
frame's entry point and behaves exactly as a touch (including the full
check), and `unpin` on a tracked frame is a no-op returning success; for
the LRU-K replacer, `unpin` on an untracked frame fails with the
invalid-frame-id error (it is not an entry point), while `unpin` on an
already evictable frame is a no-op returning success. -/
theorem unpin_entry_point_behavior {F : Type} [DecidableEq F]
    (sl : LruInner F) (sk : LruKInner F) (id : F) :
    (findVal sl.frames id = none → sl.unpin id = sl.touch id) ∧
    (∀ p, findVal sl.frames id = some p → sl.unpin id = (.ok (), sl)) ∧
    (findVal sk.framed_pages id = none →
      sk.unpin id = (.error (.InvalidFrameId id), sk)) ∧
    (∀ p, findVal sk.framed_pages id = some p → p.evictable = true →
      sk.unpin id = (.ok (), sk)) := by
  refine ⟨?_, ?_, ?_, ?_⟩
  · intro h
    unfold LruInner.unpin LruInner.touch
    rw [h]
  · intro p hp
    unfold LruInner.unpin
    rw [hp]
  · intro h
    unfold LruKInner.unpin
    rw [h]
  · intro p hp he
    unfold LruKInner.unpin
    rw [hp]
    simp [he]

/-- C4 counterexample: on a fresh LRU-K replacer, `touch 0` (the claimed
equivalent of an initial unpin) succeeds, but `unpin 0` fails with the
invalid-frame-id error and mutates nothing — `unpin` is not an entry point
for the LRU-K replacer. -/
theorem lruK_unpin_untracked_errors_counterexample :
    ((LruKInner.new Nat 4 2 0).touch 0).1 = .ok () ∧
    (LruKInner.new Nat 4 2 0).unpin 0 =
      (.error (.InvalidFrameId 0), LruKInner.new Nat 4 2 0) := by
  constructor <;> decide

/-- Witness for C4 on fresh replacers and on a tracked evictable frame. -/
theorem unpin_entry_point_behavior_witness :
    ((LruInner.new Nat 3).unpin 0 = (LruInner.new Nat 3).touch 0) ∧
    ((LruKInner.new Nat 3 2 0).unpin 0 =
      (.error (.InvalidFrameId 0), LruKInner.new Nat 3 2 0)) ∧
    (c3K.unpin 1 = (.ok (), c3K)) :=
  ⟨(unpin_entry_point_behavior (LruInner.new Nat 3) (LruKInner.new Nat 3 2 0) 0).1
      (by decide),
    (unpin_entry_point_behavior (LruInner.new Nat 3) (LruKInner.new Nat 3 2 0) 0).2.2.1
      (by decide),
    (unpin_entry_point_behavior (LruInner.new Nat 3) c3K 1).2.2.2
      ⟨[1], 1, true⟩ (by decide) (by decide)⟩

/-! ### Claim C8 -/

/-- C8 amended: with an untracked frame id, the LRU-K `pin` fails with the
invalid-frame-id error and leaves the state unchanged, but the LRU-K
`remove` silently succeeds without mutation, the LRU `remove` fails with
the pinned-frame-removal error without mutation, and the LRU `pin`
succeeds without mutation — only LRU-K `pin` reports invalid-frame-id. -/
theorem untracked_pin_remove_behavior {F : Type} [DecidableEq F]
    (sk : LruKInner F) (sl : LruInner F) (id : F)
    (hk : findVal sk.framed_pages id = none) (hl : findVal sl.frames id = none) :
    sk.pin id = (.error (.InvalidFrameId id), sk) ∧
    sk.remove id = (.ok (), sk) ∧
    sl.remove id = (.error (.PinnedFrameRemoval id), sl) ∧
    sl.pin id = (.ok (), sl) := by
  refine ⟨?_, ?_, ?_, ?_⟩
  · unfold LruKInner.pin
    rw [hk]
  · unfold LruKInner.remove
    rw [hk]
  · unfold LruInner.remove
    rw [hl, removeKey_of_findVal_none hl]
  · unfold LruInner.pin
    rw [removeKey_of_findVal_none hl]

/-- C8 counterexample: on fresh replacers, `remove 5` returns success on
LRU-K and the pinned-frame-removal error on LRU — neither is the
invalid-frame-id error the claim demands for `remove`. -/
theorem lruK_remove_untracked_ok_counterexample :
    (LruKInner.new Nat 4 2 0).remove 5 = (.ok (), LruKInner.new Nat 4 2 0) ∧
    ((LruInner.new Nat 4).remove 5).1 = .error (.PinnedFrameRemoval 5) := by
  constructor <;> decide

/-- Witness for C8 at fresh replacers and frame id 5. -/
theorem untracked_pin_remove_behavior_witness :
    (LruKInner.new Nat 4 2 0).pin 5 =
      (.error (.InvalidFrameId 5), LruKInner.new Nat 4 2 0) ∧
    (LruKInner.new Nat 4 2 0).remove 5 = (.ok (), LruKInner.new Nat 4 2 0) ∧
    (LruInner.new Nat 4).remove 5 =
      (.error (.PinnedFrameRemoval 5), LruInner.new Nat 4) ∧
    (LruInner.new Nat 4).pin 5 = (.ok (), LruInner.new Nat 4) :=
  untracked_pin_remove_behavior (LruKInner.new Nat 4 2 0) (LruInner.new Nat 4) 5
    (by decide) (by decide)

/-! ### Claim C9 -/

/-- C9: a correlated access (`t - last_ref ≤ ref_period`, `ref_period > 0`)
only updates `last_ref` and pushes no history entry; an uncorrelated
access appends the new timestamp as the newest entry (dropping the oldest
at capacity); two touches of a fresh frame within `ref_period` leave one
history entry while two touches spaced beyond it leave two; with
`ref_period = 0` every touch pushes an entry. -/
theorem lruK_correlation_filter :
    (∀ (p : PageInfo) (t rp : Int) (k : Nat), 0 < rp → t - p.last_ref ≤ rp →
      p.touch t rp k = { p with last_ref := t }) ∧
    (∀ (p : PageInfo) (t rp : Int) (k : Nat), (rp = 0 ∨ rp < t - p.last_ref) →
      p.refs.length ≤ k → 0 < k →
      (p.touch t rp k).refs.length = min (p.refs.length + 1) k ∧
      (p.touch t rp k).refs.getLast? = some t) ∧
    (∀ (t1 t2 rp : Int) (k : Nat), 0 < k → 0 < rp → rp < t1 → t2 - t1 ≤ rp →
      ((PageInfo.new.touch t1 rp k).touch t2 rp k).refs = [t1]) ∧
    (∀ (t1 t2 rp : Int) (k : Nat), 2 ≤ k → 0 < rp → rp < t1 → rp < t2 - t1 →
      ((PageInfo.new.touch t1 rp k).touch t2 rp k).refs = [t2, t2]) ∧
    (∀ (p : PageInfo) (t : Int) (k : Nat), p.refs.length ≤ k → 0 < k →
      (p.touch t 0 k).refs.length = min (p.refs.length + 1) k) := by
  have hcorr : ∀ (p : PageInfo) (t rp : Int) (k : Nat), 0 < rp → t - p.last_ref ≤ rp →
      p.touch t rp k = { p with last_ref := t } := by
    intro p t rp k h1 h2
    unfold PageInfo.touch
    rw [if_neg]
    push_neg
    exact ⟨by omega, by omega⟩
  refine ⟨hcorr, ?_, ?_, ?_, ?_⟩
  · intro p t rp k hu hle hk
    refine ⟨PageInfo.touch_refs_length p t rp k hu hle hk, ?_⟩
    unfold PageInfo.touch
    rw [if_pos hu]
    exact List.getLast?_concat _
  · intro t1 t2 rp k hk hrp h1 h2
    rw [PageInfo.touch_fresh t1 rp k hk (Or.inr h1)]
    rw [hcorr ⟨[t1], t1, true⟩ t2 rp k hrp h2]
  · intro t1 t2 rp k hk hrp h1 h2
    rw [PageInfo.touch_fresh t1 rp k (by omega) (Or.inr h1)]
    unfold PageInfo.touch
    rw [if_pos (Or.inr h2)]
    have hsh : refShift [t1] t2 = t2 - t1 := by
      unfold refShift
      rfl
    have h3 : shiftRefs [t1] t2 = [t2] := by
      unfold shiftRefs
      rw [hsh, if_pos (by omega)]
      simp
    rw [h3]
    have h4 : boundRefs [t2] k = [t2] := by
      unfold boundRefs
      rw [if_neg (by simp; omega)]
    rw [h4]
    rfl
  · intro p t k hle hk
    exact PageInfo.touch_refs_length p t 0 k (Or.inl rfl) hle hk

/-- Witness for C9 at concrete pages, timestamps 10/12/14, `ref_period` 3,
`k` 2. -/
theorem lruK_correlation_filter_witness :
    ((⟨[10], 10, true⟩ : PageInfo).touch 12 3 2 = ⟨[10], 12, true⟩) ∧
    (((⟨[10], 10, true⟩ : PageInfo).touch 14 3 2).refs.length = min 2 2 ∧
      ((⟨[10], 10, true⟩ : PageInfo).touch 14 3 2).refs.getLast? = some 14) ∧
    (((PageInfo.new.touch 10 3 2).touch 12 3 2).refs = [10]) ∧
    (((PageInfo.new.touch 10 3 2).touch 14 3 2).refs = [14, 14]) ∧
    ((⟨[10], 10, true⟩ : PageInfo).touch 14 0 2).refs.length = min 2 2 :=
  ⟨lruK_correlation_filter.1 ⟨[10], 10, true⟩ 12 3 2 (by decide) (by decide),
    lruK_correlation_filter.2.1 ⟨[10], 10, true⟩ 14 3 2 (Or.inr (by decide))
      (by decide) (by decide),
    lruK_correlation_filter.2.2.1 10 12 3 2 (by decide) (by decide) (by decide)
      (by decide),
    lruK_correlation_filter.2.2.2.1 10 14 3 2 (by decide) (by decide) (by decide)
      (by decide),
    lruK_correlation_filter.2.2.2.2 ⟨[10], 10, true⟩ 14 2 (by decide) (by decide)⟩

/-! ### Claim C10 -/

/-- C10: a successful first touch of an untracked frame inserts it
immediately evictable and increments `size` by one; concretely, a fresh
replacer returns the frame from `peek` right after its first touch, with
no `unpin` in between. -/
theorem lruK_first_touch_inserts_evictable {F : Type} [DecidableEq F]
    (s : LruKInner F) (id : F) (hnew : findVal s.framed_pages id = none)
    (hok : (s.touch id).1 = .ok ()) :
    (∃ p, findVal ((s.touch id).2).framed_pages id = some p ∧ p.evictable = true) ∧
    ((s.touch id).2).size = s.size + 1 ∧
    ((((LruKInner.new Nat 5 2 0).touch 3).2).peek).1 = some 3 := by
  unfold LruKInner.touch at hok ⊢
  by_cases hc : s.config.capacity ≤ s.size ∧ findVal s.framed_pages id = none
  · rw [if_pos hc] at hok
    simp at hok
  · rw [if_neg hc] at hok ⊢
    cases hnt : s.seq.next_timestamp with
    | mk o g2 =>
      cases o with
      | none =>
        rw [hnt] at hok
        simp at hok
      | some t =>
        rw [hnew]
        refine ⟨⟨PageInfo.new.touch t s.config.ref_period s.config.k, ?_, ?_⟩, rfl,
          by decide⟩
        · exact findVal_append_self _ hnew
        · rw [PageInfo.touch_evictable]
          rfl

/-- Witness for C10: frame 3 on a fresh capacity-5 replacer. -/
theorem lruK_first_touch_inserts_evictable_witness :
    (∃ p, findVal (((LruKInner.new Nat 5 2 0).touch 3).2).framed_pages 3 = some p ∧
      p.evictable = true) ∧
    (((LruKInner.new Nat 5 2 0).touch 3).2).size = (LruKInner.new Nat 5 2 0).size + 1 ∧
    ((((LruKInner.new Nat 5 2 0).touch 3).2).peek).1 = some 3 :=
  lruK_first_touch_inserts_evictable (LruKInner.new Nat 5 2 0) 3 (by decide) (by decide)

/-! ### Claim C2 -/

/-- The smallest run driving `size` above `capacity`: capacity 1, touch 1,
pin 1 (size back to 0), touch 2 (new frame admitted because only evictable
frames count), unpin 1. -/
def c2State : LruKInner Nat :=
  applyROps (LruKInner.new Nat 1 2 0) [ROp.touch 1, ROp.pin 1, ROp.touch 2, ROp.unpin 1]

/-- C2 counterexample: a reachable state of an LRU-K replacer of capacity 1
whose `size` is 2 — `size` can exceed the capacity once pinning is
involved, because the admission check in `touch` counts only evictable
frames while `unpin` increments `size` unconditionally. -/
theorem lruK_size_exceeds_capacity_counterexample :
    c2State.size = 2 ∧ c2State.config.capacity = 1 := by
  constructor <;> decide

/-- Invariant carried through pin-free runs: every tracked page is
evictable, `size` counts the tracked pages, the configured capacity is
`cap`, and `size` stays within it. -/
def SizeInvC {F : Type} (cap : Nat) (s : LruKInner F) : Prop :=
  (∀ pr : F × PageInfo, pr ∈ s.framed_pages → pr.2.evictable = true) ∧
  s.size = s.framed_pages.length ∧
  s.config.capacity = cap ∧
  s.size ≤ cap

theorem sizeInv_touch {F : Type} [DecidableEq F] {cap : Nat} {s : LruKInner F} (id : F)
    (h : SizeInvC cap s) : SizeInvC cap ((s.touch id).2) := by
  obtain ⟨hev, hsz, hcfg, hcap⟩ := h
  unfold LruKInner.touch
  by_cases hc : s.config.capacity ≤ s.size ∧ findVal s.framed_pages id = none
  · rw [if_pos hc]
    exact ⟨hev, hsz, hcfg, hcap⟩
  · rw [if_neg hc]
    cases hnt : s.seq.next_timestamp with
    | mk o g2 =>
      cases o with
      | none => exact ⟨hev, hsz, hcfg, hcap⟩
      | some t =>
        cases hf : findVal s.framed_pages id with
        | some p =>
          refine ⟨?_, ?_, hcfg, hcap⟩
          · intro pr hpr
            rcases mem_updateVal hpr with h2 | h2
            · exact hev pr h2
            · rw [h2]
              show (p.touch t s.config.ref_period s.config.k).evictable = true
              rw [PageInfo.touch_evictable]
              exact hev (id, p) (findVal_mem hf)
          · rw [hsz, updateVal_length]
        | none =>
          have hlt : s.size < s.config.capacity := by
            by_contra hge
            exact hc ⟨by omega, hf⟩
          refine ⟨?_, ?_, hcfg, ?_⟩
          · intro pr hpr
            rcases List.mem_append.mp hpr with h2 | h2
            · exact hev pr h2
            · have h3 : pr = (id, PageInfo.new.touch t s.config.ref_period s.config.k) := by
                simpa using h2
              rw [h3]
              show (PageInfo.new.touch t s.config.ref_period s.config.k).evictable = true
              rw [PageInfo.touch_evictable]
              rfl
          · show s.size + 1 =
              (s.framed_pages ++
                [(id, PageInfo.new.touch t s.config.ref_period s.config.k)]).length
            simp [hsz]
          · show s.size + 1 ≤ cap
            omega

theorem sizeInv_unpin {F : Type} [DecidableEq F] {cap : Nat} {s : LruKInner F} (id : F)
    (h : SizeInvC cap s) : SizeInvC cap ((s.unpin id).2) := by
  obtain ⟨hev, hsz, hcfg, hcap⟩ := h
  unfold LruKInner.unpin
  cases hf : findVal s.framed_pages id with
  | none => exact ⟨hev, hsz, hcfg, hcap⟩
  | some p =>
    have he : p.evictable = true := hev (id, p) (findVal_mem hf)
    simp only [he, if_true]
    exact ⟨hev, hsz, hcfg, hcap⟩

theorem sizeInv_remove {F : Type} [DecidableEq F] {cap : Nat} {s : LruKInner F} (id : F)
    (h : SizeInvC cap s) : SizeInvC cap ((s.remove id).2) := by
  obtain ⟨hev, hsz, hcfg, hcap⟩ := h
  unfold LruKInner.remove
  cases hf : findVal s.framed_pages id with
  | none => exact ⟨hev, hsz, hcfg, hcap⟩
  | some p =>
    have he : p.evictable = true := hev (id, p) (findVal_mem hf)
    have hlen := removeKey_length (findVal_mem hf)
    simp only [he]
    refine ⟨?_, ?_, hcfg, ?_⟩
    · intro pr hpr
      have h2 : pr ∈ removeKey s.framed_pages id := hpr
      exact hev pr (mem_removeKey h2)
    · show s.size - 1 = (removeKey s.framed_pages id).length
      omega
    · show s.size - 1 ≤ cap
      omega

theorem lruK_peek_some_mem {F : Type} (s : LruKInner F) (id : F)
    (h : (s.peek).1 = some id) : ∃ p, (id, p) ∈ s.framed_pages := by
  unfold LruKInner.peek at h
  cases ht : s.seq.next_timestamp with
  | mk o g2 =>
    rw [ht] at h
    cases o with
    | none => exact Option.noConfusion h
    | some t =>
      have h2 : (peekScan s.config.k s.config.ref_period t s.framed_pages 0 none).2 =
          some id := h
      rcases peekScan_some_attained s.config.k s.config.ref_period t s.framed_pages 0
          none id h2 with ⟨h4, _⟩ | ⟨p, hm, _, _⟩
      · exact Option.noConfusion h4
      · exact ⟨p, hm⟩

theorem sizeInv_peek {F : Type} {cap : Nat} {s : LruKInner F}
    (h : SizeInvC cap s) : SizeInvC cap ((s.peek).2) := by
  obtain ⟨hev, hsz, hcfg, hcap⟩ := h
  have hps := lruK_peek_state s
  refine ⟨?_, ?_, ?_, ?_⟩
  · intro pr hpr
    rw [hps.1] at hpr
    exact hev pr hpr
  · rw [hps.1, hps.2.1]
    exact hsz
  · rw [hps.2.2]
    exact hcfg
  · rw [hps.2.1]
    exact hcap

theorem sizeInv_evict {F : Type} [DecidableEq F] {cap : Nat} {s : LruKInner F}
    (h : SizeInvC cap s) : SizeInvC cap ((s.evict).2) := by
  obtain ⟨hev, hsz, hcfg, hcap⟩ := h
  have hps := lruK_peek_state s
  unfold LruKInner.evict
  cases hp : s.peek with
  | mk o s2 =>
    rw [hp] at hps
    obtain ⟨hf, hs2, hcfg2⟩ := hps
    dsimp only at hf hs2 hcfg2
    cases o with
    | none =>
      refine ⟨?_, ?_, ?_, ?_⟩
      · intro pr hpr
        rw [hf] at hpr
        exact hev pr hpr
      · rw [hf, hs2]
        exact hsz
      · rw [hcfg2]
        exact hcfg
      · rw [hs2]
        exact hcap
    | some id =>
      have hid : (s.peek).1 = some id := by
        rw [hp]
      obtain ⟨p, hmem⟩ := lruK_peek_some_mem s id hid
      have hmem2 : (id, p) ∈ s2.framed_pages := by
        rw [hf]
        exact hmem
      have hlen := removeKey_length hmem2
      refine ⟨?_, ?_, ?_, ?_⟩
      · intro pr hpr
        have h2 := mem_removeKey hpr
        rw [hf] at h2
        exact hev pr h2
      · show s2.size - 1 = (removeKey s2.framed_pages id).length
        have : s2.framed_pages.length = s.framed_pages.length := by
          rw [hf]
        omega
      · show s2.config.capacity = cap
        rw [hcfg2]
        exact hcfg
      · show s2.size - 1 ≤ cap
        omega

theorem sizeInv_applyROp {F : Type} [DecidableEq F] {cap : Nat} {s : LruKInner F}
    {op : ROp F} (h : SizeInvC cap s) (hop : ∀ id, op ≠ ROp.pin id) :
    SizeInvC cap (applyROp s op) := by
  cases op with
  | touch id => exact sizeInv_touch id h
  | touchWith id => exact sizeInv_touch id h
  | pin id => exact absurd rfl (hop id)
  | unpin id => exact sizeInv_unpin id h
  | evict => exact sizeInv_evict h
  | remove id => exact sizeInv_remove id h
  | peek => exact sizeInv_peek h

theorem sizeInv_applyROps {F : Type} [DecidableEq F] {cap : Nat} :
    ∀ (ops : List (ROp F)) (s : LruKInner F), SizeInvC cap s → noPinOps ops = true →
      SizeInvC cap (applyROps s ops) := by
  intro ops
  induction ops with
  | nil =>
    intro s h _
    exact h
  | cons op rest ih =>
    intro s h hnp
    cases op with
    | pin id => exact absurd hnp (by simp [noPinOps])
    | touch id => exact ih _ (sizeInv_touch id h) hnp
    | touchWith id => exact ih _ (sizeInv_touch id h) hnp
    | unpin id => exact ih _ (sizeInv_unpin id h) hnp
    | evict => exact ih _ (sizeInv_evict h) hnp
    | remove id => exact ih _ (sizeInv_remove id h) hnp
    | peek => exact ih _ (sizeInv_peek h) hnp

/-- C2 amended: for every pin-free sequence of operations on an LRU-K
replacer of capacity `cap`, every reachable state keeps `size ≤ cap` (the
counterexample shows the bound fails once `pin` is allowed). -/
theorem lruK_size_le_capacity_without_pin {F : Type} [DecidableEq F]
    (cap k : Nat) (rp : Int) (ops : List (ROp F)) (hnp : noPinOps ops = true) :
    (applyROps (LruKInner.new F cap k rp) ops).size ≤ cap := by
  have h0 : SizeInvC cap (LruKInner.new F cap k rp) := by
    refine ⟨?_, rfl, rfl, ?_⟩
    · intro pr hpr
      simp [LruKInner.new] at hpr
    · show (0 : Nat) ≤ cap
      omega
  exact (sizeInv_applyROps ops _ h0 hnp).2.2.2

/-- Witness for C2 (amended) on a concrete pin-free run at capacity 1. -/
theorem lruK_size_le_capacity_without_pin_witness :
    noPinOps ([ROp.touch 1, ROp.touch 2, ROp.evict, ROp.unpin 1] : List (ROp Nat)) =
      true ∧
    (applyROps (LruKInner.new Nat 1 2 0)
      [ROp.touch 1, ROp.touch 2, ROp.evict, ROp.unpin 1]).size ≤ 1 :=
  ⟨by decide, lruK_size_le_capacity_without_pin 1 2 0
    [ROp.touch 1, ROp.touch 2, ROp.evict, ROp.unpin 1] (by decide)⟩

end Evict
